import Mathlib

/-!
# DirectoryMirror: verification of the scan-diff-dispatch loop

Shallow embedding of the DirectoryMirror watcher (`RunScanLoop`,
`processChanges`, `validateDirExistance`, `writeFile`, `copyFile`,
`getDirFiles`) together with proofs about the spec's claims.

Modelling conventions:
* Go `os.FileInfo` becomes `FileInfo` (kind, permission bits, modification
  time, size).  A file-system entry additionally carries its byte content.
* Tree snapshots (`map[string]os.FileInfo`) become association lists
  `List (String × FileInfo)`; Go map iteration is determinised into list
  order, and map-ness is expressed by `Nodup` hypotheses on the keys.
* Go panics become `Except.error`; all file-system primitives return
  `Except String _`.
* For the file-operation layer, OS paths are modelled as component lists
  (`Path := List String`); `filepath.Dir` is `List.dropLast`.
* Concurrency (the cycle barrier and the worker pool) is modelled as
  explicit transition systems with reachability (`Relation.ReflTransGen`).
-/

namespace DirectoryMirror

/-! ## Data model -/

/-- The kind of a file-system entry as seen by `os.Lstat`/`filepath.Walk`.
`symlink` carries the link's target path (the link's "content" on a real
file system); `other` covers the remaining non-regular kinds (socket,
fifo, device).  `os.Stat` resolves `symlink` entries, `os.Lstat` does
not. -/
inductive FileKind where
  | dir
  | regular
  | symlink (target : List String)
  | other
deriving DecidableEq, Repr

/-- Model of `os.FileInfo`: the metadata the watcher reads from a stat. -/
structure FileInfo where
  kind : FileKind
  perm : Nat
  modTime : Int
  size : Nat
deriving DecidableEq, Repr

def FileInfo.isDir (i : FileInfo) : Bool := i.kind = FileKind.dir

def FileInfo.isRegular (i : FileInfo) : Bool := i.kind = FileKind.regular

/-- A tree snapshot: relative path to file metadata, as produced by
`getDirFiles` (`map[string]os.FileInfo` determinised into a list). -/
abbrev Snapshot := List (String × FileInfo)

/-! ## Diff planner: `processChanges`

The Go code iterates `srcFiles`, deletes any identical relative path from
`destFiles` (counting one `wg.Done()` per removal) and appends a write
operation; afterwards each remaining destination entry yields a delete
operation. -/

/-- Result of the planning pass of `processChanges`: the source pairs that
become Write operations (in iteration order), the destination pairs left
over that become Delete operations, and the number of `wg.Done()` calls
issued during planning (one per source path found in `destFiles`). -/
structure PlanResult where
  writes : List (String × FileInfo)
  deletes : List (String × FileInfo)
  doneCount : Nat
deriving Repr

/-- The source-iteration loop of `processChanges`: walks `srcFiles`,
removing matched keys from `destFiles` (Go `delete(destFiles, srcPath)`,
modelled as filtering out the key) and counting a `wg.Done()` for each
removal; every source pair is recorded as a Write. -/
def srcLoop : Snapshot → Snapshot → PlanResult
  | [], destFiles => ⟨[], destFiles, 0⟩
  | (p, r) :: rest, destFiles =>
    if destFiles.any (fun kv => kv.1 == p) then
      let pr := srcLoop rest (destFiles.filter (fun kv => !(kv.1 == p)))
      ⟨(p, r) :: pr.writes, pr.deletes, pr.doneCount + 1⟩
    else
      let pr := srcLoop rest destFiles
      ⟨(p, r) :: pr.writes, pr.deletes, pr.doneCount⟩

/-- `processChanges`: plan one cycle from the two snapshots. -/
def processChanges (srcFiles destFiles : Snapshot) : PlanResult :=
  srcLoop srcFiles destFiles

/-- One operation closure appended to `jobFunctions` by `processChanges`:
either `writeFile(p1, p2, p3, wg)` or `deleteFile(p1, p2, wg)` with the
locally cached parameters. -/
inductive Job where
  | write (srcAbs : String) (info : FileInfo) (destAbs : String)
  | del (info : FileInfo) (destAbs : String)
deriving DecidableEq, Repr

/-- `filepath.Join` on the already-clean paths the watcher builds. -/
def goJoin (a b : String) : String := a ++ "/" ++ b

/-- The list of operation closures returned by `processChanges`: one Write
per source pair (source path joined, destination path built by string
concatenation as in the Go code) followed by one Delete per remaining
destination pair. -/
def jobFunctions (srcDir destDir : String) (pr : PlanResult) : List Job :=
  pr.writes.map (fun kv => Job.write (goJoin srcDir kv.1) kv.2 (destDir ++ kv.1))
    ++ pr.deletes.map (fun kv => Job.del kv.2 (goJoin destDir kv.1))

/-- The WaitGroup counter at the point `wg.Wait()` can first be reached:
`RunScanLoop` does `wg.Add(len(srcFiles) + len(destFiles))` and planning
issues `doneCount` many `wg.Done()` calls, so this many completions are
still expected from the operations. -/
def barrierExpected (srcFiles destFiles : Snapshot) : Nat :=
  srcFiles.length + destFiles.length - (processChanges srcFiles destFiles).doneCount

/-- The number of relative paths present in both snapshots (counted on the
source side; with `Nodup` keys this is the size of the key intersection). -/
def commonCount (srcFiles destFiles : Snapshot) : Nat :=
  ((srcFiles.map Prod.fst).filter (fun p => (destFiles.map Prod.fst).contains p)).length

/-! ## Planner lemmas -/

theorem length_filter_add_length_filter_not {α : Type} (p : α → Bool) (l : List α) :
    (l.filter p).length + (l.filter (fun a => !p a)).length = l.length := by
  induction l with
  | nil => rfl
  | cons a t ih => cases h : p a <;> simp [List.filter_cons, h] <;> omega

theorem count_eq_one_of_nodup_mem {l : List String} {a : String} (d : l.Nodup)
    (h : a ∈ l) : l.countP (fun x => x == a) = 1 := by
  induction l with
  | nil => simp at h
  | cons b t ih =>
    rcases List.mem_cons.mp h with rfl | hmem
    · have hnot : a ∉ t := (List.nodup_cons.mp d).1
      have : t.countP (fun x => x == a) = 0 := by
        rw [List.countP_eq_length_filter, List.length_eq_zero, List.filter_eq_nil_iff]
        intro x hx
        simp only [beq_iff_eq]
        exact fun he => hnot (he ▸ hx)
      simp [List.countP_cons, this]
    · have hne : b ≠ a := by
        rintro rfl
        exact (List.nodup_cons.mp d).1 hmem
      have := ih (List.nodup_cons.mp d).2 hmem
      simp [List.countP_cons, this, hne]

/-- Every source pair is recorded as exactly one Write, in iteration order:
the Write list of the plan is the source snapshot itself. -/
theorem srcLoop_writes (src dest : Snapshot) : (srcLoop src dest).writes = src := by
  induction src generalizing dest with
  | nil => rfl
  | cons kv rest ih =>
    obtain ⟨p, r⟩ := kv
    simp only [srcLoop]
    split <;> simp [ih]

theorem beq_flip (a b : String) : (a == b) = (b == a) := Bool.beq_comm

/-- The Delete list of the plan consists of exactly the destination pairs
whose relative path does not occur in the source snapshot. -/
theorem srcLoop_deletes (src dest : Snapshot) :
    (srcLoop src dest).deletes
      = dest.filter (fun kv => !(src.any (fun s => s.1 == kv.1))) := by
  induction src generalizing dest with
  | nil => simp [srcLoop]
  | cons hd rest ih =>
    obtain ⟨p, r⟩ := hd
    simp only [srcLoop]
    split
    · rename_i hfound
      dsimp only
      rw [ih, List.filter_filter]
      refine List.filter_congr (fun kv _ => ?_)
      simp only [List.any_cons, Bool.not_or]
      rw [beq_flip p kv.1]
      exact Bool.and_comm _ _
    · rename_i hnot
      dsimp only
      rw [ih]
      refine List.filter_congr (fun kv hkv => ?_)
      have hkp : (kv.1 == p) = false := by
        rw [Bool.eq_false_iff]
        intro hb
        exact hnot (List.any_eq_true.mpr ⟨kv, hkv, hb⟩)
      simp only [List.any_cons, Bool.not_or]
      rw [beq_flip p kv.1, hkp]
      simp

/-- Mass balance of the planning pass: every `wg.Done()` issued during
planning removed exactly one destination pair (destination keys being
unique), so leftover Deletes plus the done count equals `len(destFiles)`. -/
theorem srcLoop_balance (src dest : Snapshot) (hd : (dest.map Prod.fst).Nodup) :
    (srcLoop src dest).deletes.length + (srcLoop src dest).doneCount = dest.length := by
  induction src generalizing dest with
  | nil => simp [srcLoop]
  | cons hd0 rest ih
  =>
    obtain ⟨p, r⟩ := hd0
    simp only [srcLoop]
    split
    · rename_i hfound
      have hd' : ((dest.filter (fun kv => !(kv.1 == p))).map Prod.fst).Nodup := by
        refine List.Nodup.sublist (List.Sublist.map Prod.fst ?_) hd
        exact List.filter_sublist dest
      have hone : dest.countP (fun kv => kv.1 == p) = 1 := by
        have hmem : p ∈ dest.map Prod.fst := by
          obtain ⟨kv, hkv, hb⟩ := List.any_eq_true.mp hfound
          exact List.mem_map.mpr ⟨kv, hkv, by simpa using hb⟩
        have := count_eq_one_of_nodup_mem hd hmem
        rw [List.countP_map] at this
        simpa [Function.comp] using this
      have hlen : (dest.filter (fun kv => !(kv.1 == p))).length + 1 = dest.length := by
        have hpart := length_filter_add_length_filter_not
          (fun kv : String × FileInfo => kv.1 == p) dest
        rw [← List.countP_eq_length_filter, hone] at hpart
        omega
      have hrec := ih (dest.filter (fun kv => !(kv.1 == p))) hd'
      show (srcLoop rest (dest.filter (fun kv => !(kv.1 == p)))).deletes.length
          + ((srcLoop rest (dest.filter (fun kv => !(kv.1 == p)))).doneCount + 1)
          = dest.length
      omega
    · rename_i hnot
      have hrec := ih dest hd
      show (srcLoop rest dest).deletes.length + (srcLoop rest dest).doneCount
          = dest.length
      exact hrec

/-- The done count of the planning pass equals the number of source paths
present in both snapshots (source keys being unique). -/
theorem srcLoop_done (src dest : Snapshot) (hs : (src.map Prod.fst).Nodup) :
    (srcLoop src dest).doneCount = commonCount src dest := by
  induction src generalizing dest with
  | nil => simp [srcLoop, commonCount]
  | cons hd0 rest ih
  =>
    obtain ⟨p, r⟩ := hd0
    have hs' : (rest.map Prod.fst).Nodup := (List.nodup_cons.mp (by simpa using hs)).2
    have hpnot : p ∉ rest.map Prod.fst := (List.nodup_cons.mp (by simpa using hs)).1
    simp only [srcLoop]
    split
    · rename_i hfound
      dsimp only
      set dest' := dest.filter (fun kv => !(kv.1 == p)) with hdest'
      have hrec := ih dest' hs'
      -- removing key `p` from the working copy does not change membership of
      -- any other source key
      have hcc : commonCount rest dest' = commonCount rest dest := by
        unfold commonCount
        congr 1
        refine List.filter_congr (fun q hq => ?_)
        have hqne : q ≠ p := fun he => hpnot (he ▸ hq)
        have hmapped : dest'.map Prod.fst
            = (dest.map Prod.fst).filter (fun x => !(x == p)) := by
          rw [hdest', List.filter_map]
          rfl
        rw [hmapped]
        cases hmem : (dest.map Prod.fst).contains q with
        | true =>
          have hqmem := List.elem_iff.mp hmem
          have hqmem' : q ∈ (dest.map Prod.fst).filter (fun x => !(x == p)) :=
            List.mem_filter.mpr ⟨hqmem, by simp [hqne]⟩
          exact List.elem_iff.mpr hqmem'
        | false =>
          rw [Bool.eq_false_iff]
          intro hc
          have hq' := (List.mem_filter.mp (List.elem_iff.mp hc)).1
          exact (Bool.eq_false_iff.mp hmem) (List.elem_iff.mpr hq')
      have hpc : (dest.map Prod.fst).contains p = true := by
        obtain ⟨kv, hkv, hb⟩ := List.any_eq_true.mp hfound
        exact List.elem_iff.mpr (List.mem_map.mpr ⟨kv, hkv, by simpa using hb⟩)
      have hcons : commonCount ((p, r) :: rest) dest = commonCount rest dest + 1 := by
        unfold commonCount
        rw [List.map_cons, List.filter_cons]
        simp only [hpc, if_true, List.length_cons]
      rw [hcons, ← hcc, ← hrec]
    · rename_i hnot
      dsimp only
      have hrec := ih dest hs'
      have hpc : (dest.map Prod.fst).contains p = false := by
        rw [Bool.eq_false_iff]
        intro hc
        obtain ⟨kv, hkv, hfst⟩ := List.mem_map.mp (List.elem_iff.mp hc)
        exact hnot (List.any_eq_true.mpr ⟨kv, hkv, by simp [hfst]⟩)
      have hcons : commonCount ((p, r) :: rest) dest = commonCount rest dest := by
        unfold commonCount
        rw [List.map_cons, List.filter_cons]
        simp only [hpc, if_false, Bool.false_eq_true]
      rw [hcons, ← hrec]

theorem countP_key_eq_zero {l : List String} {a : String} (h : a ∉ l) :
    l.countP (fun x => x == a) = 0 := by
  rw [List.countP_eq_zero]
  intro x hx hb
  exact h ((beq_iff_eq.mp hb) ▸ hx)

/-- Membership in the Delete set of a plan: exactly the destination-only
relative paths. -/
theorem deletes_keys_mem (src dest : Snapshot) (p : String) :
    p ∈ (processChanges src dest).deletes.map Prod.fst
      ↔ (p ∈ dest.map Prod.fst ∧ p ∉ src.map Prod.fst) := by
  unfold processChanges
  rw [srcLoop_deletes]
  constructor
  · intro hp
    obtain ⟨kv, hkv, rfl⟩ := List.mem_map.mp hp
    obtain ⟨hmem, hpred⟩ := List.mem_filter.mp hkv
    refine ⟨List.mem_map.mpr ⟨kv, hmem, rfl⟩, ?_⟩
    intro hsrc
    obtain ⟨s, hsm, hfst⟩ := List.mem_map.mp hsrc
    have hany : (src.any (fun s => s.1 == kv.1)) = true :=
      List.any_eq_true.mpr ⟨s, hsm, by simp [hfst]⟩
    rw [hany] at hpred
    simp at hpred
  · rintro ⟨hdm, hsm⟩
    obtain ⟨kv, hkv, rfl⟩ := List.mem_map.mp hdm
    refine List.mem_map.mpr ⟨kv, List.mem_filter.mpr ⟨hkv, ?_⟩, rfl⟩
    have hany : (src.any (fun s => s.1 == kv.1)) = false := by
      rw [List.any_eq_false]
      intro s hs hb
      exact hsm (List.mem_map.mpr ⟨s, hs, beq_iff_eq.mp hb⟩)
    rw [hany]
    rfl

theorem deletes_keys_nodup (src dest : Snapshot)
    (hd : (dest.map Prod.fst).Nodup) :
    ((processChanges src dest).deletes.map Prod.fst).Nodup := by
  unfold processChanges
  rw [srcLoop_deletes]
  exact List.Nodup.sublist (List.Sublist.map Prod.fst (List.filter_sublist dest)) hd

/-- The number of operation closures emitted for a cycle equals the
barrier's expected-completion count (shared helper for the barrier
claims). -/
theorem jobs_length_eq_barrier (srcDir destDir : String) (src dest : Snapshot)
    (hd : (dest.map Prod.fst).Nodup) :
    (jobFunctions srcDir destDir (processChanges src dest)).length
      = barrierExpected src dest := by
  have hbal := srcLoop_balance src dest hd
  unfold jobFunctions barrierExpected processChanges
  rw [List.length_append, List.length_map, List.length_map, srcLoop_writes]
  omega

/-- C2: the expected-completion count used by the cycle barrier equals
`|sourceSnapshot| + |destSnapshot| - |paths present in both snapshots|`,
which is exactly the number of operations the planner emits (one Write per
source path, one Delete per destination-only path). -/
theorem barrier_count_eq_ops (srcDir destDir : String) (src dest : Snapshot)
    (hs : (src.map Prod.fst).Nodup) (hd : (dest.map Prod.fst).Nodup) :
    barrierExpected src dest = src.length + dest.length - commonCount src dest ∧
    (jobFunctions srcDir destDir (processChanges src dest)).length
      = barrierExpected src dest := by
  have hdone := srcLoop_done src dest hs
  constructor
  · unfold barrierExpected processChanges
    rw [hdone]
  · exact jobs_length_eq_barrier srcDir destDir src dest hd

/-- Closed instance of `barrier_count_eq_ops` on concrete snapshots with one
shared path. -/
theorem barrier_count_eq_ops_witness :
    (([("a", FileInfo.mk FileKind.regular 420 1 0),
        ("c", FileInfo.mk FileKind.regular 420 2 0)].map Prod.fst).Nodup) ∧
    (([("a", FileInfo.mk FileKind.regular 420 1 0),
        ("b", FileInfo.mk FileKind.dir 493 3 0)].map Prod.fst).Nodup) ∧
    (barrierExpected
        [("a", FileInfo.mk FileKind.regular 420 1 0),
          ("c", FileInfo.mk FileKind.regular 420 2 0)]
        [("a", FileInfo.mk FileKind.regular 420 1 0),
          ("b", FileInfo.mk FileKind.dir 493 3 0)]
      = 2 + 2 - commonCount
          [("a", FileInfo.mk FileKind.regular 420 1 0),
            ("c", FileInfo.mk FileKind.regular 420 2 0)]
          [("a", FileInfo.mk FileKind.regular 420 1 0),
            ("b", FileInfo.mk FileKind.dir 493 3 0)] ∧
      (jobFunctions "src" "dst" (processChanges
          [("a", FileInfo.mk FileKind.regular 420 1 0),
            ("c", FileInfo.mk FileKind.regular 420 2 0)]
          [("a", FileInfo.mk FileKind.regular 420 1 0),
            ("b", FileInfo.mk FileKind.dir 493 3 0)])).length
        = barrierExpected
            [("a", FileInfo.mk FileKind.regular 420 1 0),
              ("c", FileInfo.mk FileKind.regular 420 2 0)]
            [("a", FileInfo.mk FileKind.regular 420 1 0),
              ("b", FileInfo.mk FileKind.dir 493 3 0)]) :=
  ⟨by decide, by decide,
    barrier_count_eq_ops "src" "dst" _ _ (by decide) (by decide)⟩

/-- C3: one Write per source path, one Delete per destination-only path,
and the Write and Delete sets are disjoint on relative paths. -/
theorem plan_write_delete_disjoint (src dest : Snapshot)
    (hs : (src.map Prod.fst).Nodup) (hd : (dest.map Prod.fst).Nodup) :
    (∀ p : String, p ∈ src.map Prod.fst →
        ((processChanges src dest).writes.map Prod.fst).countP (fun q => q == p)
          = 1) ∧
    (∀ p : String, p ∉ src.map Prod.fst →
        ((processChanges src dest).writes.map Prod.fst).countP (fun q => q == p)
          = 0) ∧
    (∀ p : String, p ∈ dest.map Prod.fst → p ∉ src.map Prod.fst →
        ((processChanges src dest).deletes.map Prod.fst).countP (fun q => q == p)
          = 1) ∧
    (∀ p : String, ¬(p ∈ dest.map Prod.fst ∧ p ∉ src.map Prod.fst) →
        ((processChanges src dest).deletes.map Prod.fst).countP (fun q => q == p)
          = 0) ∧
    (∀ p : String, ¬(p ∈ (processChanges src dest).writes.map Prod.fst ∧
        p ∈ (processChanges src dest).deletes.map Prod.fst)) := by
  have hwk : (processChanges src dest).writes = src := srcLoop_writes src dest
  refine ⟨?_, ?_, ?_, ?_, ?_⟩
  · intro p hp
    rw [hwk]
    exact count_eq_one_of_nodup_mem hs hp
  · intro p hp
    rw [hwk]
    exact countP_key_eq_zero hp
  · intro p hpd hps
    exact count_eq_one_of_nodup_mem (deletes_keys_nodup src dest hd)
      ((deletes_keys_mem src dest p).mpr ⟨hpd, hps⟩)
  · intro p hp
    refine countP_key_eq_zero (fun hmem => hp ?_)
    exact (deletes_keys_mem src dest p).mp hmem
  · intro p ⟨hw, hdm⟩
    rw [hwk] at hw
    exact ((deletes_keys_mem src dest p).mp hdm).2 hw

/-- Closed instance of `plan_write_delete_disjoint` on concrete snapshots. -/
theorem plan_write_delete_disjoint_witness :
    (([("a", FileInfo.mk FileKind.regular 420 1 0)].map Prod.fst).Nodup) ∧
    (([("a", FileInfo.mk FileKind.regular 420 1 0),
        ("b", FileInfo.mk FileKind.dir 493 3 0)].map Prod.fst).Nodup) ∧
    (∀ p : String, ¬(p ∈ (processChanges
          [("a", FileInfo.mk FileKind.regular 420 1 0)]
          [("a", FileInfo.mk FileKind.regular 420 1 0),
            ("b", FileInfo.mk FileKind.dir 493 3 0)]).writes.map Prod.fst ∧
        p ∈ (processChanges
          [("a", FileInfo.mk FileKind.regular 420 1 0)]
          [("a", FileInfo.mk FileKind.regular 420 1 0),
            ("b", FileInfo.mk FileKind.dir 493 3 0)]).deletes.map Prod.fst)) :=
  ⟨by decide, by decide,
    (plan_write_delete_disjoint _ _ (by decide) (by decide)).2.2.2.2⟩

/-! ## Cycle barrier (C1)

`RunScanLoop` initialises a `sync.WaitGroup` to `len(src)+len(dest)`,
planning consumes `doneCount` of it, each operation's deferred `wg.Done()`
consumes one more, and `wg.Wait()` returns only when the counter is zero;
only then can the next iteration's scan begin.  We model the execution
phase of one cycle as a transition system. -/

/-- State of one cycle's execution phase: operations not yet completed, the
WaitGroup counter, and whether the next iteration's scan has begun. -/
structure CycleState where
  pending : Nat
  counter : Nat
  nextScanStarted : Bool
deriving DecidableEq, Repr

/-- Transitions of the execution phase: an operation completes (its deferred
`wg.Done()` decrements the counter), or `wg.Wait()` returns — which requires
the counter to be zero — and the next scan begins. -/
inductive CycleStep : CycleState → CycleState → Prop where
  | complete (p c : Nat) (b : Bool) : CycleStep ⟨p + 1, c + 1, b⟩ ⟨p, c, b⟩
  | beginNextScan (p : Nat) : CycleStep ⟨p, 0, false⟩ ⟨p, 0, true⟩

/-- The state at the start of the execution phase of a cycle: all planned
operations pending, the WaitGroup counter at
`len(src)+len(dest) - doneCount`, the next scan not yet started. -/
def initCycle (srcDir destDir : String) (src dest : Snapshot) : CycleState :=
  ⟨(jobFunctions srcDir destDir (processChanges src dest)).length,
    barrierExpected src dest, false⟩

/-- C1: in any execution of a cycle, once the next iteration's scan has
started, every operation of the cycle has completed — the barrier blocks
cycle N+1's scan until all of cycle N's writes/deletes are done. -/
theorem scanLoop_barrier_blocks (srcDir destDir : String) (src dest : Snapshot)
    (_hs : (src.map Prod.fst).Nodup) (hd : (dest.map Prod.fst).Nodup)
    (s : CycleState)
    (hreach : Relation.ReflTransGen CycleStep (initCycle srcDir destDir src dest) s)
    (hstarted : s.nextScanStarted = true) : s.pending = 0 := by
  have hinv : ∀ t : CycleState,
      Relation.ReflTransGen CycleStep (initCycle srcDir destDir src dest) t →
      t.counter = t.pending ∧ (t.nextScanStarted = true → t.pending = 0) := by
    intro t ht
    induction ht with
    | refl =>
      refine ⟨?_, ?_⟩
      · exact (jobs_length_eq_barrier srcDir destDir src dest hd).symm
      · intro hfalse
        simp [initCycle] at hfalse
    | tail hprev hstep ih =>
      obtain ⟨ih1, ih2⟩ := ih
      cases hstep with
      | complete p c b =>
        dsimp only at ih1 ih2 ⊢
        refine ⟨by omega, fun hb => ?_⟩
        have := ih2 hb
        omega
      | beginNextScan p =>
        dsimp only at ih1 ih2 ⊢
        exact ⟨ih1, fun _ => ih1.symm⟩
  exact (hinv s hreach).2 hstarted

/-- Closed instance of `scanLoop_barrier_blocks`: with empty snapshots the
barrier is immediately zero, the next scan may start and nothing is
pending. -/
theorem scanLoop_barrier_blocks_witness :
    (CycleState.mk 0 0 true).pending = 0 :=
  scanLoop_barrier_blocks "src" "dst" [] [] (by decide) (by decide)
    ⟨0, 0, true⟩
    (Relation.ReflTransGen.single (CycleStep.beginNextScan 0))
    rfl

/-! ## Worker pool executor (C8)

`RunScanLoop` has two dispatch branches.  With
`MaxConcurrentWorkers < 1` it spawns one goroutine per operation with no
admission control.  With `MaxConcurrentWorkers = k >= 1` it creates a
buffered channel of functions with capacity `k`, starts exactly `k`
persistent worker goroutines that pull from the channel, and feeds every
operation through the channel.  Both branches are modelled as transition
systems over the set of operations. -/

/-- State of the unbounded branch: operations not yet spawned, currently
running goroutines, and finished operations. -/
structure SpawnState where
  toSpawn : List Job
  running : List Job
  finished : List Job
deriving DecidableEq, Repr

/-- Unbounded dispatch: `go jobFunc()` spawns the next operation with no
admission control; a running operation may finish at any time. -/
inductive SpawnStep : SpawnState → SpawnState → Prop where
  | spawn (j : Job) (rest r f : List Job) :
      SpawnStep ⟨j :: rest, r, f⟩ ⟨rest, j :: r, f⟩
  | finish (j : Job) (ts pre post f : List Job) :
      SpawnStep ⟨ts, pre ++ j :: post, f⟩ ⟨ts, pre ++ post, j :: f⟩

/-- State of the bounded branch: operations not yet enqueued, the buffered
channel contents, one slot per worker goroutine (`some j` while executing
`j`), and finished operations. -/
structure PoolState where
  toEnqueue : List Job
  queue : List Job
  workers : List (Option Job)
  finished : List Job
deriving DecidableEq, Repr

/-- Bounded dispatch with limit `k`: sending on the buffered channel blocks
unless fewer than `k` functions are buffered; an idle worker pulls the next
function from the channel; a busy worker finishes its function. -/
inductive PoolStep (k : Nat) : PoolState → PoolState → Prop where
  | enqueue (j : Job) (rest q : List Job) (w : List (Option Job)) (f : List Job)
      (hq : q.length < k) :
      PoolStep k ⟨j :: rest, q, w, f⟩ ⟨rest, q ++ [j], w, f⟩
  | take (j : Job) (ts q : List Job) (pre post : List (Option Job)) (f : List Job) :
      PoolStep k ⟨ts, j :: q, pre ++ none :: post, f⟩
        ⟨ts, q, pre ++ some j :: post, f⟩
  | finish (j : Job) (ts q : List Job) (pre post : List (Option Job)) (f : List Job) :
      PoolStep k ⟨ts, q, pre ++ some j :: post, f⟩
        ⟨ts, q, pre ++ none :: post, j :: f⟩

/-- The pool as started by `RunScanLoop`: nothing enqueued yet, empty
channel, `k` idle workers. -/
def initPool (k : Nat) (jobs : List Job) : PoolState :=
  ⟨jobs, [], List.replicate k none, []⟩

/-- Number of operations executing at one instant. -/
def PoolState.runningCount (s : PoolState) : Nat :=
  (s.workers.filter Option.isSome).length

theorem spawn_all_reachable (jobs : List Job) : ∀ r f : List Job,
    Relation.ReflTransGen SpawnStep ⟨jobs, r, f⟩ ⟨[], jobs.reverse ++ r, f⟩ := by
  induction jobs with
  | nil => intro r f; simp; exact Relation.ReflTransGen.refl
  | cons j rest ih =>
    intro r f
    refine Relation.ReflTransGen.head (SpawnStep.spawn j rest r f) ?_
    have := ih (j :: r) f
    simpa using this

/-- C8: with `maxConcurrentWorkers < 1` every operation is launched as its
own concurrent task — a state where all operations run at once is reachable
(no admission control); with `maxConcurrentWorkers = k >= 1` exactly `k`
worker tasks exist in every reachable state, the channel never holds more
than `k` operations, and at no instant do more than `k` operations execute
concurrently. -/
theorem executor_concurrency (jobs : List Job) (k : Nat) (_hk : 1 ≤ k) :
    (∃ s : SpawnState,
      Relation.ReflTransGen SpawnStep ⟨jobs, [], []⟩ s ∧
      s.toSpawn = [] ∧ s.running.length = jobs.length) ∧
    (∀ s : PoolState,
      Relation.ReflTransGen (PoolStep k) (initPool k jobs) s →
      s.workers.length = k ∧ s.queue.length ≤ k ∧ s.runningCount ≤ k) := by
  constructor
  · refine ⟨⟨[], jobs.reverse, []⟩, ?_, rfl, by simp⟩
    simpa using spawn_all_reachable jobs [] []
  · intro s hreach
    have hinv : s.workers.length = k ∧ s.queue.length ≤ k := by
      induction hreach with
      | refl => simp [initPool]
      | tail hprev hstep ih =>
        obtain ⟨ih1, ih2⟩ := ih
        cases hstep with
        | enqueue j rest q w f hq =>
          dsimp only at ih1 ih2 ⊢
          simp only [List.length_append, List.length_cons, List.length_nil]
          omega
        | take j ts q pre post f =>
          dsimp only at ih1 ih2 ⊢
          simp only [List.length_append, List.length_cons] at ih1 ih2 ⊢
          omega
        | finish j ts q pre post f =>
          dsimp only at ih1 ih2 ⊢
          simp only [List.length_append, List.length_cons] at ih1 ih2 ⊢
          omega
    refine ⟨hinv.1, hinv.2, ?_⟩
    calc s.runningCount ≤ s.workers.length := List.length_filter_le _ _
    _ = k := hinv.1

/-- Closed instance of `executor_concurrency` with two operations and
limit 1. -/
theorem executor_concurrency_witness :
    (∃ s : SpawnState,
      Relation.ReflTransGen SpawnStep
        ⟨[Job.del (FileInfo.mk FileKind.regular 420 1 0) "d/x",
          Job.del (FileInfo.mk FileKind.regular 420 2 0) "d/y"], [], []⟩ s ∧
      s.toSpawn = [] ∧ s.running.length = 2) ∧
    (∀ s : PoolState,
      Relation.ReflTransGen (PoolStep 1)
        (initPool 1
          [Job.del (FileInfo.mk FileKind.regular 420 1 0) "d/x",
            Job.del (FileInfo.mk FileKind.regular 420 2 0) "d/y"]) s →
      s.workers.length = 1 ∧ s.queue.length ≤ 1 ∧ s.runningCount ≤ 1) :=
  executor_concurrency
    [Job.del (FileInfo.mk FileKind.regular 420 1 0) "d/x",
      Job.del (FileInfo.mk FileKind.regular 420 2 0) "d/y"] 1 (by decide)

/-! ## File operation executor (C4, C5, C9, C10)

OS paths are modelled as component lists (`Path`), `filepath.Dir` as
`List.dropLast`, and the file system as an association list from path to
entry.  Go panics become `Except.error`.  `os.Create` is modelled as always
succeeding (creation failures are environmental and not the subject of any
claim); `os.Chmod`/`os.Chtimes` fail when the path does not exist, as the
real calls do. -/

abbrev Path := List String

/-- A file-system entry: metadata plus, for regular files, the byte
content.  `size` is the stat size and is kept separate from the content so
that a file changing between `os.Stat` and `io.Copy` is representable. -/
structure Entry where
  kind : FileKind
  perm : Nat
  modTime : Int
  size : Nat
  content : List Nat
deriving DecidableEq, Repr

/-- The `os.FileInfo` view of an entry, as returned by `os.Stat`. -/
def Entry.toInfo (e : Entry) : FileInfo := ⟨e.kind, e.perm, e.modTime, e.size⟩

abbrev FS := List (Path × Entry)

/-- Raw entry lookup: exactly `os.Lstat` (no symlink resolution), and the
building block of the resolving `osStat` below.  The destination-side
`os.Stat`/`os.Chmod`/`os.Chtimes` calls of the watcher are also modelled
with this raw lookup: the mirror's own destination tree contains only
entries the tool itself created (regular files and directories), on which
following and non-following semantics agree. -/
def fsStat (fs : FS) (p : Path) : Option Entry :=
  (fs.find? (fun kv => kv.1 == p)).map (fun kv => kv.2)

/-- Symlink resolution with the OS's depth cap (`ELOOP` after ~40
levels). -/
def maxSymlinkDepth : Nat := 40

/-- Resolve a path, following symlink entries, with bounded depth. -/
def resolveStat (fs : FS) : Nat → Path → Except String Entry
  | 0, _ => .error "stat: too many levels of symbolic links"
  | fuel + 1, p =>
    match fsStat fs p with
    | none => .error "stat: no such file or directory"
    | some e =>
      match e.kind with
      | FileKind.symlink target => resolveStat fs fuel target
      | _ => .ok e

/-- `os.Stat`: look the path up and follow symlinks. -/
def osStat (fs : FS) (p : Path) : Except String Entry :=
  resolveStat fs maxSymlinkDepth p

/-- Install (create or overwrite) an entry at a path. -/
def fsSet (fs : FS) (p : Path) (e : Entry) : FS :=
  (p, e) :: fs.filter (fun kv => !(kv.1 == p))

/-- A directory entry as created by `os.Mkdir`-family calls. -/
def dirEntry (perm : Nat) : Entry := ⟨FileKind.dir, perm, 0, 0, []⟩

/-- `os.Chmod`: fails if the path does not exist, otherwise updates only
the permission bits. -/
def osChmod (fs : FS) (p : Path) (perm : Nat) : Except String FS :=
  match fsStat fs p with
  | none => .error "chmod: no such file or directory"
  | some e => .ok (fsSet fs p { e with perm := perm })

/-- `os.Chtimes`: fails if the path does not exist, otherwise updates only
the modification time. -/
def osChtimes (fs : FS) (p : Path) (t : Int) : Except String FS :=
  match fsStat fs p with
  | none => .error "chtimes: no such file or directory"
  | some e => .ok (fsSet fs p { e with modTime := t })

/-- The prefix-creating loop of `os.MkdirAll`: `done` is the already
validated prefix, `todo` the remaining components; every missing prefix is
created as a directory with the single permission argument, an existing
directory is kept, an existing non-directory is an error. -/
def mkdirAllFrom (fs : FS) (done : Path) (todo : List String) (perm : Nat) :
    Except String FS :=
  match todo with
  | [] => .ok fs
  | c :: rest =>
    match fsStat fs (done ++ [c]) with
    | none => mkdirAllFrom (fsSet fs (done ++ [c]) (dirEntry perm)) (done ++ [c]) rest perm
    | some e =>
      if e.kind = FileKind.dir then mkdirAllFrom fs (done ++ [c]) rest perm
      else .error "mkdir: not a directory"

/-- `os.MkdirAll(path, perm)`: create every missing prefix of `path` as a
directory with permission `perm`. -/
def osMkdirAll (fs : FS) (p : Path) (perm : Nat) : Except String FS :=
  mkdirAllFrom fs [] p perm

/-- Boolean path-prefix test (`r` is a prefix of `q`). -/
def pathPre : Path → Path → Bool
  | [], _ => true
  | _ :: _, [] => false
  | a :: rs, b :: qs => a == b && pathPre rs qs

/-- `validateDirExistance`: stat the source path (panic on error); if it is
a directory, chmod the destination to its permissions when the destination
exists, or `MkdirAll` it with those permissions (logging a Write line) when
it does not; otherwise recurse on both parents (`filepath.Dir`).  The Go
recursion walks `filepath.Dir` fixpoints forever if no prefix is a
directory; the model makes that case an explicit error via fuel (callers
pass enough fuel for every real run). -/
def validateDirExistance (fs : FS) : Nat → Path → Path → Except String (FS × List Path)
  | 0, _, _ => .error "validateDirExistance: does not terminate"
  | fuel + 1, srcPath, destPath =>
    match fsStat fs srcPath with
    | none => .error "stat: no such file or directory"
    | some info =>
      if info.kind = FileKind.dir then
        match fsStat fs destPath with
        | some _ =>
          match osChmod fs destPath info.perm with
          | .error e => .error e
          | .ok fs' => .ok (fs', [])
        | none =>
          match osMkdirAll fs destPath info.perm with
          | .error e => .error e
          | .ok fs' => .ok (fs', [destPath])
      else
        validateDirExistance fs fuel srcPath.dropLast destPath.dropLast

/-- `copyFile`: re-stat the source with `os.Stat` — which *follows
symlinks*, unlike the `Lstat`-based record the walk produced — panicking
on error; silently return if the resolved entry is not a regular file;
otherwise create/truncate the destination, copy all bytes of the resolved
entry (`os.Open` follows symlinks too), and panic if the byte count
written differs from the resolved stat size. -/
def copyFile (fs : FS) (src dst : Path) : Except String FS :=
  match osStat fs src with
  | .error err => .error err
  | .ok e =>
    if e.kind = FileKind.regular then
      let fs' := fsSet fs dst ⟨FileKind.regular, 438, 0, e.content.length, e.content⟩
      if e.content.length = e.size then .ok fs'
      else .error "written != sourceFileStat.Size()"
    else
      .ok fs

/-- The copy/chmod/chtimes tail of `writeFile`, reached when the staleness
check did not return early; ends by logging the Write line. -/
def writeBack (fs : FS) (srcPath : Path) (srcFile : FileInfo) (path : Path)
    (log : List Path) : Except String (FS × List Path) :=
  match copyFile fs srcPath path with
  | .error e => .error e
  | .ok fs2 =>
    match osChmod fs2 path srcFile.perm with
    | .error e => .error e
    | .ok fs3 =>
      match osChtimes fs3 path srcFile.modTime with
      | .error e => .error e
      | .ok fs4 => .ok (fs4, log ++ [path])

/-- `writeFile(srcPath, srcFile, path, wg)`: validate the destination
directory chain, skip directories, compare modification times (equal means
unchanged, early return), else copy and synchronise permissions and
modification time.  The returned list is the sequence of logged Write
paths. -/
def writeFile (fs : FS) (srcPath : Path) (srcFile : FileInfo) (path : Path) :
    Except String (FS × List Path) :=
  match validateDirExistance fs (srcPath.length + 1) srcPath path with
  | .error e => .error e
  | .ok (fs1, log1) =>
    if srcFile.kind = FileKind.dir then .ok (fs1, log1)
    else
      match fsStat fs1 path with
      | some d =>
        if d.modTime = srcFile.modTime then .ok (fs1, log1)
        else writeBack fs1 srcPath srcFile path log1
      | none => writeBack fs1 srcPath srcFile path log1

/-! ### File-system and path-prefix lemmas -/

theorem find?_filter_key (fs : FS) (p q : Path) (hne : q ≠ p) :
    (fs.filter (fun kv => !(kv.1 == p))).find? (fun kv => kv.1 == q)
      = fs.find? (fun kv => kv.1 == q) := by
  induction fs with
  | nil => rfl
  | cons kv t ih =>
    obtain ⟨k1, e1⟩ := kv
    by_cases hp : k1 = p
    · subst hp
      have h2 : (k1 == q) = false := by
        rw [beq_eq_false_iff_ne]
        exact fun h => hne h.symm
      simp [List.filter_cons, List.find?_cons, h2, ih]
    · have h1 : (k1 == p) = false := by rwa [beq_eq_false_iff_ne]
      cases hq : (k1 == q) with
      | true => simp [List.filter_cons, List.find?_cons, h1, hq]
      | false => simp [List.filter_cons, List.find?_cons, h1, hq, ih]

theorem fsStat_fsSet (fs : FS) (p : Path) (e : Entry) (q : Path) :
    fsStat (fsSet fs p e) q = if q = p then some e else fsStat fs q := by
  by_cases h : q = p
  · subst h
    simp [fsStat, fsSet, List.find?_cons_of_pos]
  · have hb : (p == q) = false := by
      rw [beq_eq_false_iff_ne]
      exact fun he => h he.symm
    simp only [fsStat, fsSet, if_neg h]
    rw [List.find?_cons_of_neg _ (by simp [hb]), find?_filter_key fs p q h]

theorem fsStat_fsSet_self (fs : FS) (p : Path) (e : Entry) :
    fsStat (fsSet fs p e) p = some e := by
  rw [fsStat_fsSet, if_pos rfl]

theorem fsStat_fsSet_ne (fs : FS) (p : Path) (e : Entry) (q : Path) (h : q ≠ p) :
    fsStat (fsSet fs p e) q = fsStat fs q := by
  rw [fsStat_fsSet, if_neg h]

theorem resolveStat_succ_nonsymlink {fs : FS} {p : Path} {e : Entry} (fuel : Nat)
    (hs : fsStat fs p = some e) (hk : ∀ t, e.kind ≠ FileKind.symlink t) :
    resolveStat fs (fuel + 1) p = .ok e := by
  rw [resolveStat, hs]
  dsimp only
  cases he : e.kind with
  | symlink t => exact absurd he (hk t)
  | dir => rfl
  | regular => rfl
  | other => rfl

/-- `os.Stat` on a non-symlink entry is that entry. -/
theorem osStat_of_nonsymlink {fs : FS} {p : Path} {e : Entry}
    (hs : fsStat fs p = some e) (hk : ∀ t, e.kind ≠ FileKind.symlink t) :
    osStat fs p = .ok e := by
  show resolveStat fs (39 + 1) p = .ok e
  exact resolveStat_succ_nonsymlink 39 hs hk

theorem pathPre_iff (r q : Path) : pathPre r q = true ↔ ∃ t, q = r ++ t := by
  induction r generalizing q with
  | nil => simp [pathPre]
  | cons a rs ih =>
    cases q with
    | nil =>
      simp [pathPre]
    | cons b qs =>
      simp only [pathPre, Bool.and_eq_true, beq_iff_eq, ih]
      constructor
      · rintro ⟨rfl, t, rfl⟩
        exact ⟨t, rfl⟩
      · rintro ⟨t, ht⟩
        obtain ⟨rfl, rfl⟩ : b = a ∧ qs = rs ++ t := by
          constructor <;> [exact (List.cons.injEq .. ▸ ht).1;
            exact (List.cons.injEq .. ▸ ht).2]
        exact ⟨rfl, t, rfl⟩

theorem pathPre_refl (p : Path) : pathPre p p = true :=
  (pathPre_iff p p).mpr ⟨[], by simp⟩

theorem pathPre_length {r q : Path} (h : pathPre r q = true) : r.length ≤ q.length := by
  obtain ⟨t, rfl⟩ := (pathPre_iff r q).mp h
  simp

theorem pathPre_trans {a b c : Path} (h1 : pathPre a b = true)
    (h2 : pathPre b c = true) : pathPre a c = true := by
  obtain ⟨t1, rfl⟩ := (pathPre_iff a b).mp h1
  obtain ⟨t2, rfl⟩ := (pathPre_iff _ c).mp h2
  exact (pathPre_iff _ _).mpr ⟨t1 ++ t2, by simp⟩

theorem pathPre_dropLast_self (q : Path) : pathPre q.dropLast q = true := by
  cases hq : q with
  | nil => exact pathPre_refl []
  | cons b qs =>
    refine (pathPre_iff _ _).mpr ⟨[(b :: qs).getLast (by simp)], ?_⟩
    exact (List.dropLast_append_getLast (by simp)).symm

theorem pathPre_dropLast_mono {r q : Path} (h : pathPre r q.dropLast = true) :
    pathPre r q = true :=
  pathPre_trans h (pathPre_dropLast_self q)

theorem pathPre_false_of_longer {r q : Path} (h : q.length < r.length) :
    pathPre r q = false := by
  cases hb : pathPre r q with
  | true => exact absurd (pathPre_length hb) (by omega)
  | false => rfl

theorem pathPre_append (xs t : Path) : pathPre xs (xs ++ t) = true :=
  (pathPre_iff _ _).mpr ⟨t, rfl⟩

/-- `MkdirAll` touches nothing outside the prefixes of its target path. -/
theorem mkdirAllFrom_outside : ∀ (todo : List String) (fs : FS) (done : Path)
    (perm : Nat) (fs' : FS), mkdirAllFrom fs done todo perm = .ok fs' →
    ∀ r : Path, pathPre r (done ++ todo) = false → fsStat fs' r = fsStat fs r := by
  intro todo
  induction todo with
  | nil =>
    intro fs done perm fs' h r hpre
    cases h
    rfl
  | cons c rest ih =>
    intro fs done perm fs' h r hpre
    rw [mkdirAllFrom] at h
    have hassoc : done ++ c :: rest = (done ++ [c]) ++ rest := by simp
    have hne : r ≠ done ++ [c] := by
      intro he
      have : pathPre r (done ++ c :: rest) = true := by
        rw [he, hassoc]
        exact pathPre_append _ _
      rw [this] at hpre
      exact Bool.noConfusion hpre
    cases hq : fsStat fs (done ++ [c]) with
    | none =>
      rw [hq] at h
      rw [ih _ _ _ _ h r (by rw [← hassoc]; exact hpre)]
      exact fsStat_fsSet_ne _ _ _ _ hne
    | some e =>
      rw [hq] at h
      dsimp only at h
      by_cases hk : e.kind = FileKind.dir
      · rw [if_pos hk] at h
        exact ih _ _ _ _ h r (by rw [← hassoc]; exact hpre)
      · rw [if_neg hk] at h
        exact Except.noConfusion h

/-! ### `validateDirExistance` lemmas -/

/-- `validateDirExistance fs fuel p q` touches only prefixes of `q`: the
entry at any path that is not a prefix of `q` is untouched. -/
theorem validate_outside : ∀ (fuel : Nat) (fs : FS) (p q : Path) (fs' : FS)
    (log : List Path), validateDirExistance fs fuel p q = .ok (fs', log) →
    ∀ r : Path, pathPre r q = false → fsStat fs' r = fsStat fs r := by
  intro fuel
  induction fuel with
  | zero =>
    intro fs p q fs' log h
    exact Except.noConfusion h
  | succ fuel ih =>
    intro fs p q fs' log h r hpre
    rw [validateDirExistance] at h
    cases hp : fsStat fs p with
    | none =>
      rw [hp] at h
      exact Except.noConfusion h
    | some info =>
      rw [hp] at h
      dsimp only at h
      by_cases hk : info.kind = FileKind.dir
      · rw [if_pos hk] at h
        have hne : r ≠ q := by
          intro he
          rw [he, pathPre_refl] at hpre
          exact Bool.noConfusion hpre
        cases hq : fsStat fs q with
        | some x =>
          rw [hq] at h
          rw [osChmod, hq] at h
          cases h
          exact fsStat_fsSet_ne _ _ _ _ hne
        | none =>
          rw [hq] at h
          rw [osMkdirAll] at h
          cases hmk : mkdirAllFrom fs [] q info.perm with
          | error e =>
            rw [hmk] at h
            exact Except.noConfusion h
          | ok fsm =>
            rw [hmk] at h
            cases h
            exact mkdirAllFrom_outside _ _ _ _ _ hmk r (by simpa using hpre)
      · rw [if_neg hk] at h
        refine ih _ _ _ _ _ h r ?_
        cases hdl : pathPre r q.dropLast with
        | true =>
          rw [pathPre_dropLast_mono hdl] at hpre
          exact Bool.noConfusion hpre
        | false => rfl

/-! ## Claim C9: copy byte-count validation -/

/-- C9: during every actual file copy the byte count written is validated
against the stat size of the source; equality yields the copied file,
any mismatch is a fatal error (Go panic). -/
theorem copyFile_size_check (fs : FS) (src dst : Path) (e : Entry)
    (hs : fsStat fs src = some e) (hreg : e.kind = FileKind.regular) :
    (e.content.length = e.size →
      copyFile fs src dst
        = .ok (fsSet fs dst ⟨FileKind.regular, 438, 0, e.content.length, e.content⟩)) ∧
    (e.content.length ≠ e.size →
      copyFile fs src dst = .error "written != sourceFileStat.Size()") := by
  have hos : osStat fs src = .ok e :=
    osStat_of_nonsymlink hs
      (by rw [hreg]; intro t h; exact FileKind.noConfusion h)
  unfold copyFile
  rw [hos]
  dsimp only
  rw [if_pos hreg]
  constructor
  · intro h
    rw [if_pos h]
  · intro h
    rw [if_neg h]

/-- Closed instance of `copyFile_size_check`: a two-byte file whose stat
size matches copies cleanly; the same content against a stale stat size of
3 is a fatal error. -/
theorem copyFile_size_check_witness :
    (copyFile [(["s", "f"], Entry.mk FileKind.regular 420 5 2 [1, 2])]
        ["s", "f"] ["d", "f"]
      = .ok (fsSet [(["s", "f"], Entry.mk FileKind.regular 420 5 2 [1, 2])]
          ["d", "f"] ⟨FileKind.regular, 438, 0, 2, [1, 2]⟩)) ∧
    (copyFile [(["s", "g"], Entry.mk FileKind.regular 420 5 3 [1, 2])]
        ["s", "g"] ["d", "g"]
      = .error "written != sourceFileStat.Size()") :=
  ⟨(copyFile_size_check [(["s", "f"], Entry.mk FileKind.regular 420 5 2 [1, 2])]
      ["s", "f"] ["d", "f"] (Entry.mk FileKind.regular 420 5 2 [1, 2]) rfl rfl).1 rfl,
    (copyFile_size_check [(["s", "g"], Entry.mk FileKind.regular 420 5 3 [1, 2])]
      ["s", "g"] ["d", "g"] (Entry.mk FileKind.regular 420 5 3 [1, 2]) rfl rfl).2
      (by decide)⟩

/-! ## Claim C4: Write of a regular file -/

/-- C4: for a Write whose source record is a regular file, an existing
destination with exactly equal modification time is left unchanged (size
and content are never compared); otherwise — differing time or absent
destination — the source bytes are copied over and the destination's
permission bits and modification time are set to the record's, so the next
cycle's comparison sees equality. -/
theorem writeFile_regular_spec (fs : FS) (srcPath path : Path) (e : Entry)
    (hs : fsStat fs srcPath = some e)
    (hreg : e.kind = FileKind.regular)
    (hwf : e.content.length = e.size)
    (fs1 : FS) (log1 : List Path)
    (hv : validateDirExistance fs (srcPath.length + 1) srcPath path
      = .ok (fs1, log1))
    (hpne : path ≠ [])
    (hdisj : pathPre srcPath path.dropLast = false) :
    (∀ d, fsStat fs path = some d → d.modTime = e.modTime →
      writeFile fs srcPath e.toInfo path = .ok (fs1, log1) ∧
      fsStat fs1 path = fsStat fs path) ∧
    ((∀ d, fsStat fs path = some d → d.modTime ≠ e.modTime) →
      ∃ fs4, writeFile fs srcPath e.toInfo path = .ok (fs4, log1 ++ [path]) ∧
        fsStat fs4 path
          = some ⟨FileKind.regular, e.perm, e.modTime, e.content.length, e.content⟩) := by
  have hkind_ne : ¬((Entry.toInfo e).kind = FileKind.dir) := by
    simp [Entry.toInfo, hreg]
  -- peel the first (non-directory) step of validateDirExistance
  have hv' : validateDirExistance fs srcPath.length srcPath.dropLast path.dropLast
      = .ok (fs1, log1) := by
    rw [validateDirExistance, hs] at hv
    dsimp only at hv
    rw [if_neg (by simp [hreg])] at hv
    exact hv
  have hpres : ∀ r : Path, pathPre r path.dropLast = false →
      fsStat fs1 r = fsStat fs r :=
    validate_outside _ _ _ _ _ _ hv'
  have hpath_pres : fsStat fs1 path = fsStat fs path := by
    refine hpres path (pathPre_false_of_longer ?_)
    have h1 : path.length ≠ 0 := by
      simpa using fun h => hpne (List.length_eq_zero.mp h)
    have := List.length_dropLast path
    omega
  have hsrc_pres : fsStat fs1 srcPath = some e := by
    rw [hpres srcPath hdisj]
    exact hs
  constructor
  · intro d hd heq
    refine ⟨?_, hpath_pres⟩
    unfold writeFile
    rw [hv]
    dsimp only
    rw [if_neg hkind_ne, hpath_pres, hd]
    dsimp only
    rw [if_pos (show d.modTime = (Entry.toInfo e).modTime from heq)]
  · intro hne
    have hos : osStat fs1 srcPath = .ok e :=
      osStat_of_nonsymlink hsrc_pres
        (by rw [hreg]; intro t h; exact FileKind.noConfusion h)
    have hcopy : copyFile fs1 srcPath path
        = .ok (fsSet fs1 path ⟨FileKind.regular, 438, 0, e.content.length, e.content⟩) := by
      unfold copyFile
      rw [hos]
      dsimp only
      rw [if_pos hreg, if_pos hwf]
    have hch : osChmod (fsSet fs1 path ⟨FileKind.regular, 438, 0, e.content.length, e.content⟩)
        path (Entry.toInfo e).perm
        = .ok (fsSet (fsSet fs1 path ⟨FileKind.regular, 438, 0, e.content.length, e.content⟩)
            path ⟨FileKind.regular, e.perm, 0, e.content.length, e.content⟩) := by
      unfold osChmod
      rw [fsStat_fsSet_self]
      rfl
    have hct : osChtimes
        (fsSet (fsSet fs1 path ⟨FileKind.regular, 438, 0, e.content.length, e.content⟩)
          path ⟨FileKind.regular, e.perm, 0, e.content.length, e.content⟩)
        path (Entry.toInfo e).modTime
        = .ok (fsSet (fsSet (fsSet fs1 path
              ⟨FileKind.regular, 438, 0, e.content.length, e.content⟩)
            path ⟨FileKind.regular, e.perm, 0, e.content.length, e.content⟩)
          path ⟨FileKind.regular, e.perm, e.modTime, e.content.length, e.content⟩) := by
      unfold osChtimes
      rw [fsStat_fsSet_self]
      rfl
    have hwb : writeBack fs1 srcPath e.toInfo path log1
        = .ok (fsSet (fsSet (fsSet fs1 path
              ⟨FileKind.regular, 438, 0, e.content.length, e.content⟩)
            path ⟨FileKind.regular, e.perm, 0, e.content.length, e.content⟩)
          path ⟨FileKind.regular, e.perm, e.modTime, e.content.length, e.content⟩,
          log1 ++ [path]) := by
      unfold writeBack
      rw [hcopy]
      dsimp only
      rw [hch]
      dsimp only
      rw [hct]
    refine ⟨fsSet (fsSet (fsSet fs1 path
          ⟨FileKind.regular, 438, 0, e.content.length, e.content⟩)
        path ⟨FileKind.regular, e.perm, 0, e.content.length, e.content⟩)
      path ⟨FileKind.regular, e.perm, e.modTime, e.content.length, e.content⟩,
      ?_, fsStat_fsSet_self _ _ _⟩
    unfold writeFile
    rw [hv]
    dsimp only
    rw [if_neg hkind_ne, hpath_pres]
    cases hstat : fsStat fs path with
    | some d =>
      dsimp only
      rw [if_neg (show ¬(d.modTime = (Entry.toInfo e).modTime) from hne d hstat)]
      exact hwb
    | none =>
      dsimp only
      exact hwb

/-- Closed instance of `writeFile_regular_spec`: copying a fresh one-byte
file into an existing destination tree synchronises content, permission
bits and modification time. -/
theorem writeFile_regular_spec_witness :
    ∃ fs4, writeFile
        [(["s"], Entry.mk FileKind.dir 448 0 0 []),
          (["s", "f"], Entry.mk FileKind.regular 420 5 1 [7]),
          (["d"], Entry.mk FileKind.dir 493 0 0 [])]
        ["s", "f"] (Entry.mk FileKind.regular 420 5 1 [7]).toInfo ["d", "f"]
      = .ok (fs4, [] ++ [["d", "f"]]) ∧
    fsStat fs4 ["d", "f"] = some ⟨FileKind.regular, 420, 5, 1, [7]⟩ :=
  (writeFile_regular_spec
    [(["s"], Entry.mk FileKind.dir 448 0 0 []),
      (["s", "f"], Entry.mk FileKind.regular 420 5 1 [7]),
      (["d"], Entry.mk FileKind.dir 493 0 0 [])]
    ["s", "f"] ["d", "f"] (Entry.mk FileKind.regular 420 5 1 [7])
    rfl rfl rfl
    [(["d"], Entry.mk FileKind.dir 448 0 0 []),
      (["s"], Entry.mk FileKind.dir 448 0 0 []),
      (["s", "f"], Entry.mk FileKind.regular 420 5 1 [7])]
    [] rfl (by decide) rfl).2
    (fun d hd => nomatch hd)

/-! ## Claim C5: destination parent directory chain -/

mutual
inductive GoTree where
  | leaf (info : FileInfo) : GoTree
  | node (info : FileInfo) (readable : Bool) (children : GoForest) : GoTree
inductive GoForest where
  | nil : GoForest
  | cons (name : String) (t : GoTree) (rest : GoForest) : GoForest
end

/-- Character-list prefix test (Go substring match at position 0). -/
def strStarts : List Char → List Char → Bool
  | [], _ => true
  | _ :: _, [] => false
  | a :: ps, b :: ss => a == b && strStarts ps ss

/-- `strings.Replace(s, old, "", 1)`: remove the first occurrence of `old`
from `s` (character-list level). -/
def stripOnce (old : List Char) : List Char → List Char
  | [] => if strStarts old ([] : List Char) then ([] : List Char).drop old.length else []
  | c :: rest =>
    if strStarts old (c :: rest) then (c :: rest).drop old.length
    else c :: stripOnce old rest

/-- `strings.Replace(path, srcDir, "", 1)` as used to compute the relative
path. -/
def goReplaceOnce (s old : String) : String := ⟨stripOnce old.data s.data⟩

/-- The walk callback of `getDirFiles`: skip the root itself, store the
prefix-stripped path for every other entry, ignore the incoming error and
return `nil` (second component). -/
def scanCallback (srcDir : String) (files : List (String × FileInfo))
    (path : String) (info : FileInfo) : List (String × FileInfo) × Option String :=
  (if srcDir ≠ path then files ++ [(goReplaceOnce path srcDir, info)] else files,
    none)

mutual
/-- Go's `walk` specialised to the `getDirFiles` callback: visit the entry;
for a directory, call the callback with the `readDirNames` error (which the
callback swallows) and descend only if readable. -/
def walkTree (srcDir path : String) (t : GoTree)
    (files : List (String × FileInfo)) : List (String × FileInfo) × Option String :=
  match t with
  | .leaf info => scanCallback srcDir files path info
  | .node info readable children =>
    match scanCallback srcDir files path info with
    | (files1, some err) => (files1, some err)
    | (files1, none) =>
      if readable then walkForest srcDir path children files1 else (files1, none)
/-- Walk the children of a directory in order, stopping at the first error
(the callback never produces one). -/
def walkForest (srcDir path : String) (c : GoForest)
    (files : List (String × FileInfo)) : List (String × FileInfo) × Option String :=
  match c with
  | .nil => (files, none)
  | .cons name t rest =>
    match walkTree srcDir (path ++ "/" ++ name) t files with
    | (files1, some err) => (files1, some err)
    | (files1, none) => walkForest srcDir path rest files1
end

/-- `getDirFiles`: run the walk from the root and panic if it returned an
error. -/
def getDirFiles (srcDir : String) (t : GoTree) :
    Except String (List (String × FileInfo)) :=
  match walkTree srcDir srcDir t [] with
  | (_, some err) => .error err
  | (files, none) => .ok files

/-- C6 is violated by the code: the walk callback ignores its error
argument and returns `nil`, so `filepath.Walk` never reports an error and
the `panic(err)` in `getDirFiles` is unreachable.  A tree whose
subdirectory `sub` is unreadable produces a silently *partial* snapshot
(`sub`'s child `x` is missing) instead of a fatal error, and an unreadable
root produces an empty snapshot instead of a fatal error. -/
theorem getDirFiles_partial_no_panic :
    getDirFiles "/r"
        (GoTree.node (FileInfo.mk FileKind.dir 493 0 0) true
          (GoForest.cons "a" (GoTree.leaf (FileInfo.mk FileKind.regular 420 5 3))
            (GoForest.cons "sub"
              (GoTree.node (FileInfo.mk FileKind.dir 448 2 0) false
                (GoForest.cons "x"
                  (GoTree.leaf (FileInfo.mk FileKind.regular 420 9 1))
                  GoForest.nil))
              GoForest.nil)))
      = .ok [("/a", FileInfo.mk FileKind.regular 420 5 3),
          ("/sub", FileInfo.mk FileKind.dir 448 2 0)] ∧
    ("/sub/x" ∉ [("/a", FileInfo.mk FileKind.regular 420 5 3),
        ("/sub", FileInfo.mk FileKind.dir 448 2 0)].map Prod.fst) ∧
    getDirFiles "/r"
        (GoTree.node (FileInfo.mk FileKind.dir 493 0 0) false
          (GoForest.cons "a" (GoTree.leaf (FileInfo.mk FileKind.regular 420 5 3))
            GoForest.nil))
      = .ok [] :=
  ⟨rfl, by decide, rfl⟩

/-! ### Relative-path lemmas (C7) -/

theorem string_data_inj {a b : String} (h : a.data = b.data) : a = b :=
  String.ext h

theorem data_append (a b : String) : (a ++ b).data = a.data ++ b.data := by
  cases a
  cases b
  rfl

theorem strStarts_iff (p s : List Char) :
    strStarts p s = true ↔ ∃ t, s = p ++ t := by
  induction p generalizing s with
  | nil => simp [strStarts]
  | cons a ps ih =>
    cases s with
    | nil => simp [strStarts]
    | cons b ss =>
      simp only [strStarts, Bool.and_eq_true, beq_iff_eq, ih]
      constructor
      · rintro ⟨rfl, t, rfl⟩
        exact ⟨t, rfl⟩
      · rintro ⟨t, ht⟩
        obtain ⟨rfl, rfl⟩ : b = a ∧ ss = ps ++ t := by
          constructor <;> [exact (List.cons.injEq .. ▸ ht).1;
            exact (List.cons.injEq .. ▸ ht).2]
        exact ⟨rfl, t, rfl⟩

theorem strStarts_refl (p : List Char) : strStarts p p = true :=
  (strStarts_iff p p).mpr ⟨[], by simp⟩

theorem strStarts_append_of (p s u : List Char) (h : strStarts p s = true) :
    strStarts p (s ++ u) = true := by
  obtain ⟨t, rfl⟩ := (strStarts_iff p s).mp h
  exact (strStarts_iff _ _).mpr ⟨t ++ u, by simp⟩

theorem stripOnce_of_starts {old s : List Char} (h : strStarts old s = true) :
    stripOnce old s = s.drop old.length := by
  cases s with
  | nil => rw [stripOnce, if_pos h]
  | cons c rest => rw [stripOnce, if_pos h]

theorem strStarts_trans {a b c : List Char} (h1 : strStarts a b = true)
    (h2 : strStarts b c = true) : strStarts a c = true := by
  obtain ⟨t1, rfl⟩ := (strStarts_iff a b).mp h1
  obtain ⟨t2, rfl⟩ := (strStarts_iff _ c).mp h2
  exact (strStarts_iff _ _).mpr ⟨t1 ++ t2, by simp⟩

theorem walkTree_node_eq (srcDir path : String) (info : FileInfo)
    (readable : Bool) (children : GoForest) (files : List (String × FileInfo)) :
    walkTree srcDir path (.node info readable children) files
      = if readable
        then walkForest srcDir path children (scanCallback srcDir files path info).1
        else ((scanCallback srcDir files path info).1, none) := rfl

mutual
/-- Reference enumeration of the entries `filepath.Walk` visits: the
absolute path and metadata of every entry reachable from the given path,
descending only into readable directories, in visit order, the root entry
included.  (This follows the walk structure of the source; it exists to
state C7: the scanner's stored keys are exactly these visited absolute
paths with the root prefix stripped.) -/
def visitTree (path : String) (t : GoTree) : List (String × FileInfo) :=
  match t with
  | .leaf info => [(path, info)]
  | .node info readable children =>
    (path, info) :: (if readable then visitForest path children else [])
def visitForest (path : String) (c : GoForest) : List (String × FileInfo) :=
  match c with
  | .nil => []
  | .cons name t rest =>
    visitTree (path ++ "/" ++ name) t ++ visitForest path rest
end

mutual
/-- The walk never reports an error: its callback returns `nil`
unconditionally. -/
theorem walkTree_err_none (srcDir path : String) (t : GoTree)
    (files : List (String × FileInfo)) :
    (walkTree srcDir path t files).2 = none := by
  cases t with
  | leaf info => rfl
  | node info readable children =>
    rw [walkTree_node_eq]
    cases readable with
    | false => rfl
    | true => exact walkForest_err_none srcDir path children _
theorem walkForest_err_none (srcDir path : String) (c : GoForest)
    (files : List (String × FileInfo)) :
    (walkForest srcDir path c files).2 = none := by
  cases c with
  | nil => rfl
  | cons name t rest =>
    simp only [walkForest]
    split
    · rename_i files1 err heq
      have hn := walkTree_err_none srcDir (path ++ "/" ++ name) t files
      rw [heq] at hn
      exact hn
    · rename_i files1 heq
      exact walkForest_err_none srcDir path rest files1
end

mutual
/-- Exact characterisation of the scanner's accumulation: the walk appends,
in visit order, one pair per visited entry other than the root itself,
keyed by `strings.Replace(absolutePath, srcDir, "", 1)`. -/
theorem walkTree_visits (srcDir path : String) (t : GoTree)
    (files : List (String × FileInfo)) :
    (walkTree srcDir path t files).1
      = files ++ ((visitTree path t).filter (fun e => decide (srcDir ≠ e.1))).map
          (fun e => (goReplaceOnce e.1 srcDir, e.2)) := by
  cases t with
  | leaf info =>
    show (scanCallback srcDir files path info).1
        = files ++ ((visitTree path (GoTree.leaf info)).filter
            (fun e => decide (srcDir ≠ e.1))).map
          (fun e => (goReplaceOnce e.1 srcDir, e.2))
    by_cases hcond : srcDir ≠ path
    · simp [scanCallback, visitTree, hcond]
    · simp [scanCallback, visitTree, hcond]
  | node info readable children =>
    rw [walkTree_node_eq]
    cases readable with
    | false =>
      simp only [Bool.false_eq_true, if_false]
      by_cases hcond : srcDir ≠ path
      · simp [scanCallback, visitTree, hcond]
      · simp [scanCallback, visitTree, hcond]
    | true =>
      simp only [if_true]
      rw [walkForest_visits]
      by_cases hcond : srcDir ≠ path
      · simp [scanCallback, visitTree, hcond, List.filter_cons,
          List.append_assoc]
      · simp [scanCallback, visitTree, hcond, List.filter_cons]
theorem walkForest_visits (srcDir path : String) (c : GoForest)
    (files : List (String × FileInfo)) :
    (walkForest srcDir path c files).1
      = files ++ ((visitForest path c).filter (fun e => decide (srcDir ≠ e.1))).map
          (fun e => (goReplaceOnce e.1 srcDir, e.2)) := by
  cases c with
  | nil => simp [walkForest, visitForest]
  | cons name t rest =>
    simp only [walkForest]
    split
    · rename_i files1 err heq
      have hn := walkTree_err_none srcDir (path ++ "/" ++ name) t files
      rw [heq] at hn
      exact absurd hn (by simp)
    · rename_i files1 heq
      have htree := walkTree_visits srcDir (path ++ "/" ++ name) t files
      rw [heq] at htree
      rw [walkForest_visits srcDir path rest files1]
      dsimp only at htree
      rw [htree]
      simp [visitForest, List.filter_append, List.map_append, List.append_assoc]
end

mutual
/-- Every visited entry's absolute path extends the path the walk started
from. -/
theorem visitTree_starts (path : String) (t : GoTree) :
    ∀ e ∈ visitTree path t, strStarts path.data e.1.data = true := by
  cases t with
  | leaf info =>
    intro e he
    simp only [visitTree, List.mem_singleton] at he
    rw [he]
    exact strStarts_refl _
  | node info readable children =>
    intro e he
    simp only [visitTree] at he
    rcases List.mem_cons.mp he with rfl | hmem
    · exact strStarts_refl _
    · cases readable with
      | false => simp at hmem
      | true => exact visitForest_starts path children e (by simpa using hmem)
theorem visitForest_starts (path : String) (c : GoForest) :
    ∀ e ∈ visitForest path c, strStarts path.data e.1.data = true := by
  cases c with
  | nil =>
    intro e he
    simp [visitForest] at he
  | cons name t rest =>
    intro e he
    simp only [visitForest, List.mem_append] at he
    rcases he with hmem | hmem
    · have hchild := visitTree_starts (path ++ "/" ++ name) t e hmem
      have hext : strStarts path.data (path ++ "/" ++ name).data = true := by
        rw [data_append, data_append]
        exact strStarts_append_of _ _ _
          (strStarts_append_of _ _ _ (strStarts_refl _))
      exact strStarts_trans hext hchild
    · exact visitForest_starts path rest e hmem
end

/-- C7: the snapshot built by `getDirFiles` is exactly the list of visited
entries other than the root itself, each keyed by its own absolute path
with the root prefix stripped (`strings.Replace` drops the leading
occurrence of the root); consequently the root entry is never stored and
no stored relative path is the root's own empty relative path. -/
theorem getDirFiles_relative_paths (srcDir : String) (t : GoTree)
    (files : List (String × FileInfo))
    (h : getDirFiles srcDir t = .ok files) :
    files = ((visitTree srcDir t).filter (fun e => decide (srcDir ≠ e.1))).map
        (fun e => (String.mk (e.1.data.drop srcDir.data.length), e.2)) ∧
    ∀ kv ∈ files, kv.1 ≠ "" := by
  have hfiles : files = (walkTree srcDir srcDir t []).1 := by
    unfold getDirFiles at h
    split at h
    · exact Except.noConfusion h
    · rename_i files0 heq
      have hfe : files0 = files := Except.ok.inj h
      rw [← hfe, heq]
  have hchar := walkTree_visits srcDir srcDir t []
  rw [hchar, List.nil_append] at hfiles
  have hmapeq :
      ((visitTree srcDir t).filter (fun e => decide (srcDir ≠ e.1))).map
          (fun e => (goReplaceOnce e.1 srcDir, e.2))
        = ((visitTree srcDir t).filter (fun e => decide (srcDir ≠ e.1))).map
          (fun e => (String.mk (e.1.data.drop srcDir.data.length), e.2)) := by
    refine List.map_congr_left (fun e he => ?_)
    have hmem := (List.mem_filter.mp he).1
    have hpre := visitTree_starts srcDir t e hmem
    have hstrip : goReplaceOnce e.1 srcDir
        = String.mk (e.1.data.drop srcDir.data.length) := by
      unfold goReplaceOnce
      rw [stripOnce_of_starts hpre]
    rw [hstrip]
  constructor
  · rw [hfiles, hmapeq]
  · intro kv hkv
    rw [hfiles, hmapeq] at hkv
    obtain ⟨e, he, hkveq⟩ := List.mem_map.mp hkv
    obtain ⟨hmem, hfil⟩ := List.mem_filter.mp he
    have hne : srcDir ≠ e.1 := of_decide_eq_true hfil
    have hpre := visitTree_starts srcDir t e hmem
    have hlt : srcDir.data.length < e.1.data.length := by
      obtain ⟨tl, htl⟩ := (strStarts_iff _ _).mp hpre
      cases tl with
      | nil =>
        rw [List.append_nil] at htl
        exact absurd (string_data_inj htl).symm hne
      | cons c ts =>
        rw [htl]
        simp
    intro hemp
    rw [← hkveq] at hemp
    have hd : e.1.data.drop srcDir.data.length = ([] : List Char) :=
      congrArg String.data hemp
    have hlen := congrArg List.length hd
    rw [List.length_drop] at hlen
    simp only [List.length_nil] at hlen
    omega

/-- Closed instance of `getDirFiles_relative_paths` on a three-entry tree:
the snapshot is exactly the visited paths stripped of the root. -/
theorem getDirFiles_relative_paths_witness :
    ([("/a", FileInfo.mk FileKind.regular 420 5 3),
        ("/sub", FileInfo.mk FileKind.dir 448 2 0),
        ("/sub/x", FileInfo.mk FileKind.regular 420 9 1)]
      = ((visitTree "/r"
          (GoTree.node (FileInfo.mk FileKind.dir 493 0 0) true
            (GoForest.cons "a"
              (GoTree.leaf (FileInfo.mk FileKind.regular 420 5 3))
              (GoForest.cons "sub"
                (GoTree.node (FileInfo.mk FileKind.dir 448 2 0) true
                  (GoForest.cons "x"
                    (GoTree.leaf (FileInfo.mk FileKind.regular 420 9 1))
                    GoForest.nil))
                GoForest.nil)))).filter
          (fun e => decide (("/r" : String) ≠ e.1))).map
        (fun e => (String.mk (e.1.data.drop ("/r" : String).data.length), e.2)) ∧
    ∀ kv ∈ [("/a", FileInfo.mk FileKind.regular 420 5 3),
        ("/sub", FileInfo.mk FileKind.dir 448 2 0),
        ("/sub/x", FileInfo.mk FileKind.regular 420 9 1)], kv.1 ≠ "") :=
  getDirFiles_relative_paths "/r"
    (GoTree.node (FileInfo.mk FileKind.dir 493 0 0) true
      (GoForest.cons "a" (GoTree.leaf (FileInfo.mk FileKind.regular 420 5 3))
        (GoForest.cons "sub"
          (GoTree.node (FileInfo.mk FileKind.dir 448 2 0) true
            (GoForest.cons "x"
              (GoTree.leaf (FileInfo.mk FileKind.regular 420 9 1))
              GoForest.nil))
          GoForest.nil)))
    [("/a", FileInfo.mk FileKind.regular 420 5 3),
      ("/sub", FileInfo.mk FileKind.dir 448 2 0),
      ("/sub/x", FileInfo.mk FileKind.regular 420 9 1)] rfl

end DirectoryMirror
